import Mathlib

/-!
Verification development for the promkit rendering core.

The definitions below are a shallow embedding of the Rust sources:
  - src/grapheme.rs      (Grapheme, Graphemes, longest_common_prefix, width)
  - src/text_buffer.rs   (TextBuffer and its editing operations)
  - src/editor/text_editor.rs (TextEditor::gen_pane)
  - src/lib.rs           (Prompt::run driver loop)
and, where a module is absent from the provided sources (pane.rs,
terminal.rs), a model written from the specification, marked as such.

Rust Vec operations are modelled on Lean lists; usize arithmetic uses Nat
(truncated subtraction only ever occurs where the Rust code is guarded by
the same bound checks).
-/

/-- From src/grapheme.rs: a display character together with its terminal
column width. The width is computed once at construction from the unicode
width tables; its concrete value is data here, carried in the structure. -/
structure Grapheme where
  ch : Char
  width : Nat
deriving DecidableEq

/-- From src/text_buffer.rs: Grapheme::new(' '), the trailing sentinel.
The unicode width of a plain space is 1. -/
def sentinel : Grapheme := { ch := ' ', width := 1 }

/-- From src/grapheme.rs, Graphemes::width: the sum of member widths,
implemented as a left fold exactly like the Rust iterator fold. -/
def graphemesWidth (l : List Grapheme) : Nat :=
  l.foldl (fun c g => c + g.width) 0

/-- From src/grapheme.rs, Graphemes::longest_common_prefix: zip the two
sequences, take pairs while the components are equal, keep the left
component of each pair. -/
def longest_common_prefix (a b : List Grapheme) : List Grapheme :=
  ((a.zip b).takeWhile (fun p => p.1 == p.2)).map Prod.fst

/-- The specification's reading of longest_common_prefix ("the element-wise
common prefix, stopping at the first mismatch or at the end of either
sequence"), written as direct recursion, to be compared with the source
definition above. -/
def lcpSpec : List Grapheme → List Grapheme → List Grapheme
  | x :: xs, y :: ys => if x = y then x :: lcpSpec xs ys else []
  | _, _ => []

/-- Model of Rust Vec::insert(index, elem) on lists: insert at position n
(for n ≤ length; Rust panics above the length, the model appends). -/
def listInsert {α : Type} : Nat → α → List α → List α
  | 0, g, l => g :: l
  | _ + 1, g, [] => [g]
  | n + 1, g, x :: xs => x :: listInsert n g xs

/-- Model of Rust Vec::drain(a..b) on lists (the removal effect): drop the
elements with indices in [a, b). -/
def removeRange {α : Type} (a b : Nat) (l : List α) : List α :=
  l.take a ++ l.drop b

/-- Model of Rust Vec::splice(p..p+1, vec![g]) on lists: replace the element
at index p by g. -/
def spliceOne {α : Type} (p : Nat) (g : α) (l : List α) : List α :=
  l.take p ++ [g] ++ l.drop (p + 1)

/-- From src/text_buffer.rs: a cursor-addressable sequence of graphemes.
buf always ends with the sentinel; position is the cursor index. -/
structure TextBuffer where
  buf : List Grapheme
  position : Nat
deriving DecidableEq

/-- TextBuffer::new: a buffer holding only the sentinel, cursor at 0. -/
def TextBuffer.new : TextBuffer := { buf := [sentinel], position := 0 }

/-- TextBuffer::is_head: the cursor sits at index 0. -/
def TextBuffer.is_head (tb : TextBuffer) : Bool := tb.position == 0

/-- TextBuffer::is_tail: the cursor sits at the sentinel index len - 1. -/
def TextBuffer.is_tail (tb : TextBuffer) : Bool :=
  tb.position == tb.buf.length - 1

/-- TextBuffer::to_head: jump the cursor to 0 (the returned diff pair is
recovered as (tb, tb.to_head), see the pair functions below). -/
def TextBuffer.to_head (tb : TextBuffer) : TextBuffer :=
  { tb with position := 0 }

/-- TextBuffer::to_tail: jump the cursor to len - 1. -/
def TextBuffer.to_tail (tb : TextBuffer) : TextBuffer :=
  { tb with position := tb.buf.length - 1 }

/-- TextBuffer::prev: step the cursor left unless it is at the head. -/
def TextBuffer.prev (tb : TextBuffer) : TextBuffer :=
  if tb.is_head then tb else { tb with position := tb.position - 1 }

/-- TextBuffer::next: step the cursor right unless it is at the tail. -/
def TextBuffer.next (tb : TextBuffer) : TextBuffer :=
  if tb.is_tail then tb else { tb with position := tb.position + 1 }

/-- TextBuffer::insert: insert the grapheme at the cursor, then self.next()
(the buffer has grown, so from a valid state the cursor always advances). -/
def TextBuffer.insert (tb : TextBuffer) (g : Grapheme) : TextBuffer :=
  TextBuffer.next { tb with buf := listInsert tb.position g tb.buf }

/-- TextBuffer::overwrite: at the tail this delegates to insert; otherwise
splice the grapheme over the one at the cursor and self.next(). -/
def TextBuffer.overwrite (tb : TextBuffer) (g : Grapheme) : TextBuffer :=
  if tb.is_tail then tb.insert g
  else TextBuffer.next { tb with buf := spliceOne tb.position g tb.buf }

/-- TextBuffer::erase: if not at the head, self.prev() and then drain the
single index at the new cursor position. -/
def TextBuffer.erase (tb : TextBuffer) : TextBuffer :=
  if tb.is_head then tb
  else
    { buf := removeRange (tb.prev.position) (tb.prev.position + 1) tb.prev.buf,
      position := tb.prev.position }

/-- TextBuffer::replace: adopt the new graphemes, push a fresh sentinel,
and self.to_tail(). -/
def TextBuffer.replace (tb : TextBuffer) (new : List Grapheme) : TextBuffer :=
  TextBuffer.to_tail { tb with buf := new ++ [sentinel] }

/-- The [prev, next] diff pair returned by the mutating Rust methods: the
first component is the clone taken on entry, the second the state after the
mutation. insert returns this shape directly. -/
def insertPair (tb : TextBuffer) (g : Grapheme) : TextBuffer × TextBuffer :=
  (tb, tb.insert g)

/-- The diff pair returned by TextBuffer::overwrite: in the tail branch it
is the pair returned by the inner insert call (whose entry clone is the
same state), otherwise the clone on entry together with the spliced state. -/
def overwritePair (tb : TextBuffer) (g : Grapheme) : TextBuffer × TextBuffer :=
  if tb.is_tail then insertPair tb g else (tb, tb.overwrite g)

/-- Reachability by finite sequences of TextBuffer operations starting from
TextBuffer::new, the state space quantified over by the invariant claims. -/
inductive Reachable : TextBuffer → Prop where
  | init : Reachable TextBuffer.new
  | insert {tb : TextBuffer} (g : Grapheme) : Reachable tb → Reachable (tb.insert g)
  | overwrite {tb : TextBuffer} (g : Grapheme) : Reachable tb → Reachable (tb.overwrite g)
  | erase {tb : TextBuffer} : Reachable tb → Reachable tb.erase
  | prev {tb : TextBuffer} : Reachable tb → Reachable tb.prev
  | next {tb : TextBuffer} : Reachable tb → Reachable tb.next
  | to_head {tb : TextBuffer} : Reachable tb → Reachable tb.to_head
  | to_tail {tb : TextBuffer} : Reachable tb → Reachable tb.to_tail
  | replace {tb : TextBuffer} (l : List Grapheme) : Reachable tb → Reachable (tb.replace l)

/-- Modelled from the spec: matrixify lives in grapheme.rs of the released
crate but is absent from the provided sources (only its call site in
editor/text_editor.rs is present). Spec 4.1: pack graphemes left to right
into rows, starting a new row when the next grapheme would exceed
max_width; a wide grapheme that does not fit the remaining width starts a
new row rather than splitting. Accumulator: the current row and its used
width. -/
def matrixifyGo (w : Nat) : List Grapheme → List Grapheme → Nat → List (List Grapheme)
  | [], row, _ => if row.isEmpty then [] else [row]
  | g :: gs, row, used =>
    if row.isEmpty || used + g.width ≤ w then
      matrixifyGo w gs (row ++ [g]) (used + g.width)
    else
      row :: matrixifyGo w gs [g] g.width

/-- Modelled from the spec: entry point of matrixify, beginning with an
empty current row. -/
def matrixify (w : Nat) (l : List Grapheme) : List (List Grapheme) :=
  matrixifyGo w l [] 0

/-- Modelled from the spec: pane.rs is absent from the provided sources.
A pane as consumed here is its rows and its focus row (Pane::new(rows,
position) in editor/text_editor.rs); the visible-line cap does not appear
at this call site. -/
structure Pane where
  rows : List (List Grapheme)
  focusRow : Nat
deriving DecidableEq

/-- From src/editor/text_editor.rs, TextEditor::gen_pane: concatenate the
label graphemes with the buffer graphemes, matrixify at the terminal
width, and set the focus row to textbuffer.position / width. Styles and
the password mask are omitted: they decorate graphemes but do not change
row shapes, indices, or widths. -/
def genPane (label : List Grapheme) (tb : TextBuffer) (w : Nat) : Pane :=
  { rows := matrixify w (label ++ tb.buf), focusRow := tb.position / w }

/-- The focus row the claim describes: the display-column offset of the
cursor inside the logical line (label plus buffer content up to the
cursor), divided by the terminal width. -/
def claimedFocusRow (label : List Grapheme) (tb : TextBuffer) (w : Nat) : Nat :=
  graphemesWidth (label ++ tb.buf.take tb.position) / w

/-- From crossterm KeyModifiers (the bitflags referenced by src/lib.rs):
one boolean per flag; NONE is all false, CONTROL is control alone. -/
structure KeyMods where
  shift : Bool
  control : Bool
  alt : Bool
  superKey : Bool
  hyper : Bool
  metaKey : Bool
deriving DecidableEq

/-- KeyModifiers::NONE. -/
def KeyMods.none : KeyMods := ⟨false, false, false, false, false, false⟩

/-- KeyModifiers::CONTROL. -/
def KeyMods.controlOnly : KeyMods := ⟨false, true, false, false, false, false⟩

/-- From crossterm KeyEventKind. -/
inductive KeyKind where
  | press
  | repeatKind
  | release
deriving DecidableEq

/-- From crossterm KeyEventState (bitflags): keypad, caps lock, num lock;
NONE is all false. -/
structure KeyState where
  keypad : Bool
  capsLock : Bool
  numLock : Bool
deriving DecidableEq

/-- KeyEventState::NONE. -/
def KeyState.none : KeyState := ⟨false, false, false⟩

/-- From crossterm KeyCode, restricted to the constructors the driver and
widgets match on; every other code behaves like otherCode. -/
inductive KeyCode where
  | enter
  | charKey (c : Char)
  | left
  | right
  | up
  | down
  | backspace
  | tab
  | otherCode
deriving DecidableEq

/-- From crossterm KeyEvent: code, modifiers, kind, state. -/
structure KeyEvt where
  code : KeyCode
  modifiers : KeyMods
  kind : KeyKind
  state : KeyState
deriving DecidableEq

/-- From crossterm Event: a key event, a resize, or any other event (focus,
mouse, paste), which the driver treats uniformly. -/
inductive Event where
  | key (k : KeyEvt)
  | resize (w h : Nat)
  | otherEvent
deriving DecidableEq

/-- The Enter pattern of the break arm in Prompt::run: Enter, no modifiers,
press, empty state. -/
def isEnterKey (e : Event) : Bool :=
  e == Event.key ⟨KeyCode.enter, KeyMods.none, KeyKind.press, KeyState.none⟩

/-- The Ctrl+C pattern of the interrupt arm in Prompt::run: char c, CONTROL
modifiers, press, empty state. -/
def isCtrlC (e : Event) : Bool :=
  e == Event.key ⟨KeyCode.charKey 'c', KeyMods.controlOnly, KeyKind.press, KeyState.none⟩

/-- The concrete finalizing Enter event. -/
def enterEvent : Event :=
  Event.key ⟨KeyCode.enter, KeyMods.none, KeyKind.press, KeyState.none⟩

/-- The concrete Ctrl+C event. -/
def ctrlCEvent : Event :=
  Event.key ⟨KeyCode.charKey 'c', KeyMods.controlOnly, KeyKind.press, KeyState.none⟩

/-- From src/lib.rs: the collaborators of Prompt<T>, with the component
trait objects modelled as a shared state type sigma (a sum type recovers
heterogeneous component lists). handle is Component::handle_event, postrunFn
is Component::postrun, evaluator and output are the caller-supplied hooks.
The evaluator and extractor are modelled total, following spec section 6;
I/O failures of the surrounding terminal calls are outside the model. -/
structure PromptModel (σ : Type) (T : Type) where
  handle : Event → σ → σ
  postrunFn : σ → σ
  evaluator : Event → List σ → Bool
  output : List σ → T

/-- Observable effects of one run of Prompt::run, in program order: an
event read, a dispatch to component i, an evaluator call, a redraw, an
output-extractor call, a postrun on component i. -/
inductive Eff where
  | readEv (e : Event)
  | handleEv (i : Nat) (e : Event)
  | evalEv (e : Event)
  | drawEv
  | outputEv
  | postrunEv (i : Nat)
deriving DecidableEq

/-- From src/lib.rs: result of Prompt::run. ok is the extractor's value;
interrupted is Error::Interrupted, the distinguished variant separate from
I/O errors; pending stands for a run whose (finite, modelled) event source
is exhausted while the real loop would still be blocked reading. -/
inductive PromptResult (T : Type) where
  | ok (t : T)
  | interrupted (s : String)
  | pending
deriving DecidableEq

/-- The effect segment each loop iteration emits before the match on the
event: the read, one handle_event per component in order, the evaluator
call, and the redraw. -/
def iterEffs (n : Nat) (e : Event) : List Eff :=
  Eff.readEv e :: (List.range n).map (fun i => Eff.handleEv i e) ++ [Eff.evalEv e, Eff.drawEv]

/-- From src/lib.rs, the loop of Prompt::run over a finite event source:
read, dispatch to every component, evaluate, redraw, then match: a
finalizable Enter breaks (the extractor is applied to the current states,
then postrun runs on every component, and the extractor value is
returned); Ctrl+C returns Error::Interrupted; anything else iterates. -/
def runLoop {σ T : Type} (m : PromptModel σ T) : List Event → List σ → PromptResult T × List Eff
  | [], _ => (PromptResult.pending, [])
  | e :: rest, comps =>
    if isEnterKey e && m.evaluator e (comps.map (m.handle e)) then
      (PromptResult.ok (m.output (comps.map (m.handle e))),
        iterEffs comps.length e ++
          Eff.outputEv :: (List.range comps.length).map Eff.postrunEv)
    else if isCtrlC e then
      (PromptResult.interrupted "ctrl+c", iterEffs comps.length e)
    else
      ((runLoop m rest (comps.map (m.handle e))).1,
        iterEffs comps.length e ++ (runLoop m rest (comps.map (m.handle e))).2)

/-- From src/lib.rs, Prompt::run: one initial draw before the loop, then
the loop over the event source. -/
def promptRun {σ T : Type} (m : PromptModel σ T) (evs : List Event) (init : List σ) :
    PromptResult T × List Eff :=
  ((runLoop m evs init).1, Eff.drawEv :: (runLoop m evs init).2)

/-- Decidable occurrence order on effect lists: firstThen a b l holds when
an occurrence of a is followed, strictly later in l, by an occurrence of b. -/
def firstThen (a b : Eff) : List Eff → Bool
  | [] => false
  | x :: xs => if x = a then xs.contains b else firstThen a b xs

/-- The ordering property claimed for the break path: the extractor runs
exactly once and no postrun call happens after it (postrun on every
component strictly precedes the extractor call). -/
def outputOnlyAfterPostrun (n : Nat) (l : List Eff) : Prop :=
  List.count Eff.outputEv l = 1 ∧
    (∀ i, i < n → firstThen Eff.outputEv (Eff.postrunEv i) l = false) ∧
    (∀ i, i < n → List.count (Eff.postrunEv i) l = 1)

/-- Modelled from the spec: terminal.rs (the diff renderer) is absent from
the provided sources. A drawn row: graphemes plus an abstract style code, so
row equality is grapheme-wise and includes the style. -/
structure StyledRow where
  gs : List Grapheme
  style : Nat
deriving DecidableEq

/-- Modelled from the spec: a pane as the diff renderer consumes it (spec
section 3): styled rows, a focus row, and an optional visible-line cap. -/
structure TermPane where
  rows : List StyledRow
  focusRow : Nat
  cap : Option Nat
deriving DecidableEq

/-- Modelled from the spec, section 4.3: the windowing policy. Without a
cap, or when the rows fit, all rows are visible; otherwise a contiguous
window of cap rows containing the focus row, clamped at the boundaries. -/
def visibleRows (p : TermPane) : List StyledRow :=
  match p.cap with
  | Option.none => p.rows
  | Option.some c =>
    if p.rows.length ≤ c then p.rows
    else List.take c (List.drop (min p.focusRow (p.rows.length - c)) p.rows)

/-- Modelled from the spec, section 4.4: the row-level operations a redraw
may emit — clear-and-rewrite of one terminal line, or clearing a stale
trailing line. -/
inductive DrawOp where
  | clearRewrite (i : Nat) (r : StyledRow)
  | clearLine (i : Nat)
deriving DecidableEq

/-- Modelled from the spec, section 4.4 steps 2 and 3: rows that differ
from the corresponding previous-frame row are cleared and rewritten,
unchanged rows are left untouched, and trailing lines of a shrunken frame
are cleared. -/
def diffOps (old new : List StyledRow) : List DrawOp :=
  (List.range new.length).filterMap
      (fun i => if new[i]? = old[i]? then Option.none
                else (new[i]?).map (DrawOp.clearRewrite i)) ++
    (List.range' new.length (old.length - new.length)).map DrawOp.clearLine

/-- Modelled from the spec: the render session owns the previously drawn
frame, flattened to its visible rows. -/
structure Terminal where
  prevFrame : List StyledRow

/-- Modelled from the spec, section 4.4: one redraw — compute the visible
rows of every pane in order, emit the diff operations against the previous
frame, and store the new frame. -/
def Terminal.draw (t : Terminal) (ps : List TermPane) : Terminal × List DrawOp :=
  (⟨(ps.map visibleRows).flatten⟩, diffOps t.prevFrame ((ps.map visibleRows).flatten))

theorem take_append_drop_succ {α : Type} (l : List α) (n : Nat) :
    l.take n ++ l.drop (n + 1) = l.eraseIdx n := by
  induction l generalizing n with
  | nil => simp
  | cons x xs ih =>
    cases n with
    | zero => simp
    | succ k => simp [List.eraseIdx, ih]

theorem splice_eq_set {α : Type} (l : List α) (p : Nat) (g : α) (h : p < l.length) :
    spliceOne p g l = l.set p g := by
  induction l generalizing p with
  | nil => simp at h
  | cons x xs ih =>
    cases p with
    | zero => simp [spliceOne]
    | succ k =>
      have hk : k < xs.length := by simpa using h
      have := ih k hk
      simp [spliceOne] at this ⊢
      exact this

theorem lcp_cons_cons (x y : Grapheme) (xs ys : List Grapheme) :
    longest_common_prefix (x :: xs) (y :: ys) =
      (if x = y then x :: longest_common_prefix xs ys else []) := by
  by_cases h : x = y
  · simp [ longest_common_prefix, h]
  · simp [ longest_common_prefix, h]

theorem lcp_eq_lcpSpec (a b : List Grapheme) :
    longest_common_prefix a b = lcpSpec a b := by
  induction a generalizing b with
  | nil => simp [ longest_common_prefix, lcpSpec]
  | cons x xs ih =>
    cases b with
    | nil => simp [ longest_common_prefix, lcpSpec]
    | cons y ys =>
      rw [lcp_cons_cons, ih]
      by_cases h : x = y <;> simp [lcpSpec, h]

theorem lcpSpec_self (a : List Grapheme) : lcpSpec a a = a := by
  induction a with
  | nil => rfl
  | cons x xs ih => simp [lcpSpec, ih]

/-- C6: longest_common_prefix is idempotent, absorbs the empty sequence on
either side, and in general computes the element-wise common prefix that
stops at the first mismatch or at the end of either sequence (the
recursion lcpSpec). -/
theorem lcp_properties :
    (∀ a : List Grapheme, longest_common_prefix a a = a) ∧
    (∀ a : List Grapheme,
      longest_common_prefix a [] = [] ∧ longest_common_prefix [] a = []) ∧
    (∀ a b : List Grapheme, longest_common_prefix a b = lcpSpec a b) := by
  refine ⟨?_, ?_, lcp_eq_lcpSpec⟩
  · intro a; rw [lcp_eq_lcpSpec]; exact lcpSpec_self a
  · intro a
    constructor
    · simp [ longest_common_prefix]
    · simp [ longest_common_prefix]

/-- C9: the cursor-only navigation operations prev, next, to_head and
to_tail never change the grapheme sequence of a TextBuffer, only the
cursor may move. -/
theorem nav_ops_preserve_buf (tb : TextBuffer) :
    tb.prev.buf = tb.buf ∧ tb.next.buf = tb.buf ∧
      tb.to_head.buf = tb.buf ∧ tb.to_tail.buf = tb.buf := by
  refine ⟨?_, ?_, rfl, rfl⟩
  · unfold TextBuffer.prev; split <;> rfl
  · unfold TextBuffer.next; split <;> rfl

/-- C4: erase at the head (cursor 0) changes neither the graphemes nor the
cursor; erase with cursor c > 0 steps the cursor to c - 1 and removes
exactly the grapheme at index c - 1 (the one immediately before the prior
cursor), leaving all other graphemes unchanged. -/
theorem textbuffer_erase_spec (tb : TextBuffer) :
    (tb.position = 0 → tb.erase = tb) ∧
    (0 < tb.position →
      tb.erase = { buf := tb.buf.eraseIdx (tb.position - 1),
                   position := tb.position - 1 }) := by
  constructor
  · intro h
    simp [TextBuffer.erase, TextBuffer.is_head, h]
  · intro h
    have hh : tb.is_head = false := by
      simp [TextBuffer.is_head]; omega
    simp only [TextBuffer.erase, hh, Bool.false_eq_true, if_false]
    have hprev : tb.prev = { tb with position := tb.position - 1 } := by
      simp [TextBuffer.prev, hh]
    rw [hprev]
    simp only [removeRange]
    have hsucc : tb.position - 1 + 1 = tb.position := by omega
    have hed := take_append_drop_succ tb.buf (tb.position - 1)
    rw [hsucc] at hed
    rw [hsucc, hed]
/-- C5 support: the spliced buffer of a non-tail overwrite is the set. -/
theorem overwrite_not_tail_eq (tb : TextBuffer) (g : Grapheme)
    (h : tb.is_tail = false) (hlt : tb.position < tb.buf.length) :
    tb.overwrite g =
      { buf := tb.buf.set tb.position g, position := tb.position + 1 } := by
  simp only [TextBuffer.overwrite, h, Bool.false_eq_true, if_false]
  rw [splice_eq_set tb.buf tb.position g hlt]
  simp only [TextBuffer.next, TextBuffer.is_tail, List.length_set]
  have : (tb.position == tb.buf.length - 1) = false := by
    simpa [TextBuffer.is_tail] using h
  simp [this]

/-- C5: with the cursor at the tail (sentinel position), overwrite
coincides with insert, both in the resulting state and in the returned
[state_before, state_after] diff pair; off the tail (on a cursor inside
the buffer) it replaces the grapheme at the cursor and advances by one. -/
theorem textbuffer_overwrite_spec (tb : TextBuffer) (g : Grapheme) :
    (tb.is_tail = true →
      tb.overwrite g = tb.insert g ∧ overwritePair tb g = insertPair tb g) ∧
    (tb.is_tail = false → tb.position < tb.buf.length →
      tb.overwrite g =
        { buf := tb.buf.set tb.position g, position := tb.position + 1 }) := by
  constructor
  · intro h
    constructor
    · simp [TextBuffer.overwrite, h]
    · simp [overwritePair, h]
  · intro h hlt
    exact overwrite_not_tail_eq tb g h hlt

theorem listInsert_append {α : Type} (p : Nat) (g : α) (m t : List α)
    (h : p ≤ m.length) :
    listInsert p g (m ++ t) = listInsert p g m ++ t := by
  induction m generalizing p with
  | nil =>
    have : p = 0 := Nat.le_zero.mp (by simpa using h)
    subst this; rfl
  | cons x xs ih =>
    cases p with
    | zero => rfl
    | succ k =>
      have hk : k ≤ xs.length := by simpa using h
      simp [listInsert, ih k hk]

theorem listInsert_length {α : Type} (p : Nat) (g : α) (l : List α)
    (h : p ≤ l.length) :
    (listInsert p g l).length = l.length + 1 := by
  induction l generalizing p with
  | nil =>
    have : p = 0 := Nat.le_zero.mp (by simpa using h)
    subst this; rfl
  | cons x xs ih =>
    cases p with
    | zero => rfl
    | succ k =>
      have hk : k ≤ xs.length := by simpa using h
      simp [listInsert, ih k hk]

/-- The strengthened TextBuffer invariant used for the induction: the
buffer splits as some prefix followed by the sentinel, and the cursor is a
valid index. -/
def goodState (tb : TextBuffer) : Prop :=
  (∃ m, tb.buf = m ++ [sentinel]) ∧ tb.position < tb.buf.length

theorem goodState_new : goodState TextBuffer.new :=
  ⟨⟨[], rfl⟩, by simp [TextBuffer.new]⟩

theorem goodState_insert (tb : TextBuffer) (g : Grapheme) (h : goodState tb) :
    goodState (tb.insert g) := by
  obtain ⟨⟨m, hm⟩, hp⟩ := h
  have hlen : tb.buf.length = m.length + 1 := by rw [hm]; simp
  have hple : tb.position ≤ m.length := by omega
  have hbuf : listInsert tb.position g tb.buf = listInsert tb.position g m ++ [sentinel] := by
    rw [hm]; exact listInsert_append tb.position g m [sentinel] hple
  have hlen2 : (listInsert tb.position g tb.buf).length = m.length + 2 := by
    rw [listInsert_length tb.position g tb.buf (by omega), hlen]
  unfold TextBuffer.insert TextBuffer.next TextBuffer.is_tail
  simp only [hlen2]
  have hne : (tb.position == m.length + 2 - 1) = false := by
    simp; omega
  simp only [hne, Bool.false_eq_true, if_false]
  exact ⟨⟨listInsert tb.position g m, hbuf⟩, by simp [hlen2]; omega⟩

theorem goodState_overwrite (tb : TextBuffer) (g : Grapheme) (h : goodState tb) :
    goodState (tb.overwrite g) := by
  by_cases ht : tb.is_tail
  · have : tb.overwrite g = tb.insert g := by simp [TextBuffer.overwrite, ht]
    rw [this]; exact goodState_insert tb g h
  · obtain ⟨⟨m, hm⟩, hp⟩ := h
    have hlen : tb.buf.length = m.length + 1 := by rw [hm]; simp
    have ht' : tb.is_tail = false := by
      simpa using ht
    have hnt : tb.position ≠ tb.buf.length - 1 := by
      simpa [TextBuffer.is_tail] using ht
    have hplt : tb.position < m.length := by omega
    rw [overwrite_not_tail_eq tb g ht' (by omega)]
    refine ⟨⟨m.set tb.position g, ?_⟩, ?_⟩
    · rw [hm, List.set_append_left _ _ hplt]
    · simp
      omega

theorem goodState_erase (tb : TextBuffer) (h : goodState tb) :
    goodState tb.erase := by
  by_cases hh : tb.is_head
  · simp [TextBuffer.erase, hh, h]
  · obtain ⟨⟨m, hm⟩, hp⟩ := h
    have hlen : tb.buf.length = m.length + 1 := by rw [hm]; simp
    have hpos : 0 < tb.position := by
      rcases Nat.eq_zero_or_pos tb.position with h0 | h0
      · exact absurd (by simp [TextBuffer.is_head, h0]) hh
      · exact h0
    have hprev : tb.prev = { tb with position := tb.position - 1 } := by
      simp [TextBuffer.prev, hh]
    simp only [TextBuffer.erase, hh, Bool.false_eq_true, if_false, hprev]
    have hbuf : removeRange (tb.position - 1) (tb.position - 1 + 1) tb.buf =
        removeRange (tb.position - 1) (tb.position - 1 + 1) m ++ [sentinel] := by
      rw [hm]
      simp only [removeRange]
      rw [List.take_append_of_le_length (by omega),
        List.drop_append_of_le_length (by omega)]
      simp
    have hlens : (removeRange (tb.position - 1) (tb.position - 1 + 1) m).length
        = m.length - 1 := by
      simp only [removeRange]
      simp [List.length_take, List.length_drop]
      omega
    refine ⟨⟨removeRange (tb.position - 1) (tb.position - 1 + 1) m, hbuf⟩, ?_⟩
    simp only [hbuf, List.length_append, hlens]
    simp
    omega

theorem goodState_prev (tb : TextBuffer) (h : goodState tb) :
    goodState tb.prev := by
  obtain ⟨hm, hp⟩ := h
  unfold TextBuffer.prev
  split
  · exact ⟨hm, hp⟩
  · exact ⟨hm, by simp; omega⟩

theorem goodState_next (tb : TextBuffer) (h : goodState tb) :
    goodState tb.next := by
  obtain ⟨hm, hp⟩ := h
  unfold TextBuffer.next
  split
  · exact ⟨hm, hp⟩
  · next hne =>
    refine ⟨hm, ?_⟩
    simp only [TextBuffer.is_tail] at hne
    have : tb.position ≠ tb.buf.length - 1 := by simpa using hne
    simp
    omega

theorem goodState_to_head (tb : TextBuffer) (h : goodState tb) :
    goodState tb.to_head := by
  obtain ⟨⟨m, hm⟩, hp⟩ := h
  exact ⟨⟨m, hm⟩, by simp [TextBuffer.to_head]; omega⟩

theorem goodState_to_tail (tb : TextBuffer) (h : goodState tb) :
    goodState tb.to_tail := by
  obtain ⟨⟨m, hm⟩, hp⟩ := h
  refine ⟨⟨m, hm⟩, ?_⟩
  simp [TextBuffer.to_tail]
  omega

theorem goodState_replace (tb : TextBuffer) (l : List Grapheme) :
    goodState (tb.replace l) := by
  refine ⟨⟨l, rfl⟩, ?_⟩
  simp [TextBuffer.replace, TextBuffer.to_tail]

theorem reachable_goodState (tb : TextBuffer) (h : Reachable tb) : goodState tb := by
  induction h with
  | init => exact goodState_new
  | insert g _ ih => exact goodState_insert _ g ih
  | overwrite g _ ih => exact goodState_overwrite _ g ih
  | erase _ ih => exact goodState_erase _ ih
  | prev _ ih => exact goodState_prev _ ih
  | next _ ih => exact goodState_next _ ih
  | to_head _ ih => exact goodState_to_head _ ih
  | to_tail _ ih => exact goodState_to_tail _ ih
  | replace l _ => exact goodState_replace _ l

/-- C3: every TextBuffer reachable from the initial buffer by any finite
sequence of insert, overwrite, erase, prev, next, to_head, to_tail and
replace operations is non-empty, ends with the sentinel space grapheme,
and keeps its cursor within [0, len - 1]. -/
theorem textbuffer_invariant (tb : TextBuffer) (h : Reachable tb) :
    tb.buf ≠ [] ∧ tb.buf.getLast? = some sentinel ∧
      tb.position ≤ tb.buf.length - 1 := by
  obtain ⟨⟨m, hm⟩, hp⟩ := reachable_goodState tb h
  refine ⟨?_, ?_, by omega⟩
  · rw [hm]; simp
  · rw [hm, List.getLast?_append]; rfl

/-- C3 witness: the invariant instantiated on a concrete reachable state,
an insert followed by an erase starting from the initial buffer. -/
theorem textbuffer_invariant_witness :
    ((TextBuffer.new.insert { ch := 'a', width := 1 }).erase).buf ≠ [] ∧
      ((TextBuffer.new.insert { ch := 'a', width := 1 }).erase).buf.getLast?
        = some sentinel ∧
      ((TextBuffer.new.insert { ch := 'a', width := 1 }).erase).position ≤
        ((TextBuffer.new.insert { ch := 'a', width := 1 }).erase).buf.length - 1 :=
  textbuffer_invariant _ (Reachable.erase (Reachable.insert _ Reachable.init))

theorem graphemesWidth_acc (l : List Grapheme) (a : Nat) :
    l.foldl (fun c g => c + g.width) a = a + l.foldl (fun c g => c + g.width) 0 := by
  induction l generalizing a with
  | nil => simp
  | cons g gs ih =>
    rw [List.foldl_cons, List.foldl_cons, ih (a + g.width), ih (0 + g.width)]
    omega

theorem graphemesWidth_cons (g : Grapheme) (gs : List Grapheme) :
    graphemesWidth (g :: gs) = g.width + graphemesWidth gs := by
  simp only [graphemesWidth, List.foldl_cons]
  rw [graphemesWidth_acc gs (0 + g.width)]
  omega

theorem graphemesWidth_ones (l : List Grapheme) (h : ∀ g ∈ l, g.width = 1) :
    graphemesWidth l = l.length := by
  induction l with
  | nil => rfl
  | cons g gs ih =>
    have h1 : g.width = 1 := h g (by simp)
    have h2 := ih (fun x hx => h x (by simp [hx]))
    rw [graphemesWidth_cons, h1, h2]
    simp [Nat.add_comm]

/-- C7 counterexample: with the one-column label x and the freshly created
buffer (cursor on the sentinel), at width 1 the pane's focus row is
textbuffer.position / width = 0, while the row containing the cursor's
display-column offset within label plus buffer is 1 / 1 = 1. -/
theorem gen_pane_focus_cex :
    ¬ ((genPane [{ ch := 'x', width := 1 }] TextBuffer.new 1).focusRow =
        claimedFocusRow [{ ch := 'x', width := 1 }] TextBuffer.new 1) := by
  decide

/-- C7 as amended: gen_pane sets the focus row to the buffer cursor index
divided by the width. This coincides with the claimed
cursor-column-offset / width exactly in the unlabeled, all-width-one
case. -/
theorem gen_pane_focus_amended (tb : TextBuffer) (w : Nat)
    (h1 : ∀ g ∈ tb.buf, g.width = 1) (h2 : tb.position ≤ tb.buf.length) :
    (genPane [] tb w).focusRow = claimedFocusRow [] tb w := by
  simp only [genPane, claimedFocusRow, List.nil_append]
  have hall : ∀ g ∈ tb.buf.take tb.position, g.width = 1 := by
    intro g hg
    exact h1 g (List.mem_of_mem_take hg)
  rw [graphemesWidth_ones _ hall, List.length_take]
  congr 1
  omega

/-- C7 witness: the amended statement evaluated on the buffer holding a, b
and the sentinel with the cursor at index 2, at width 2. -/
theorem gen_pane_focus_amended_witness :
    (genPane []
        { buf := [{ ch := 'a', width := 1 }, { ch := 'b', width := 1 }, sentinel],
          position := 2 } 2).focusRow =
      claimedFocusRow []
        { buf := [{ ch := 'a', width := 1 }, { ch := 'b', width := 1 }, sentinel],
          position := 2 } 2 :=
  gen_pane_focus_amended _ 2 (by decide) (by decide)

theorem diffOps_self (l : List StyledRow) : diffOps l l = [] := by
  unfold diffOps
  rw [Nat.sub_self]
  simp

/-- C8: the diff renderer is idempotent — after drawing any sequence of
panes, drawing the identical sequence again emits no clear-rewrite and no
trailing-clear operation; every terminal line is left untouched. -/
theorem terminal_draw_idempotent (t : Terminal) (ps : List TermPane) :
    (((t.draw ps).1).draw ps).2 = [] := by
  simp [Terminal.draw, diffOps_self]

theorem runLoop_cons_break {σ T : Type} (m : PromptModel σ T) (e : Event)
    (rest : List Event) (comps : List σ)
    (h : (isEnterKey e && m.evaluator e (comps.map (m.handle e))) = true) :
    runLoop m (e :: rest) comps =
      (PromptResult.ok (m.output (comps.map (m.handle e))),
        iterEffs comps.length e ++
          Eff.outputEv :: (List.range comps.length).map Eff.postrunEv) := by
  simp [runLoop, h]

theorem runLoop_cons_interrupt {σ T : Type} (m : PromptModel σ T) (e : Event)
    (rest : List Event) (comps : List σ)
    (h1 : (isEnterKey e && m.evaluator e (comps.map (m.handle e))) = false)
    (h2 : isCtrlC e = true) :
    runLoop m (e :: rest) comps =
      (PromptResult.interrupted "ctrl+c", iterEffs comps.length e) := by
  simp [runLoop, h1, h2]

theorem runLoop_cons_step {σ T : Type} (m : PromptModel σ T) (e : Event)
    (rest : List Event) (comps : List σ)
    (h1 : (isEnterKey e && m.evaluator e (comps.map (m.handle e))) = false)
    (h2 : isCtrlC e = false) :
    runLoop m (e :: rest) comps =
      ((runLoop m rest (comps.map (m.handle e))).1,
        iterEffs comps.length e ++ (runLoop m rest (comps.map (m.handle e))).2) := by
  simp [runLoop, h1, h2]

theorem readEv_mem_iterEffs {n : Nat} {e x : Event}
    (h : Eff.readEv x ∈ iterEffs n e) : x = e := by
  simp [iterEffs] at h
  exact h

theorem outputEv_not_mem_iterEffs {n : Nat} {e : Event} :
    Eff.outputEv ∉ iterEffs n e := by
  simp [iterEffs]

theorem enter_not_ctrlc {e : Event} (h : isEnterKey e = true) : isCtrlC e = false := by
  have he : e = enterEvent := by
    simpa [isEnterKey, enterEvent] using h
  subst he
  decide

theorem runLoop_ctrlc {σ T : Type} (m : PromptModel σ T) (evs : List Event) :
    ∀ comps : List σ,
      (∃ e, isCtrlC e = true ∧ Eff.readEv e ∈ (runLoop m evs comps).2) →
      (runLoop m evs comps).1 = PromptResult.interrupted "ctrl+c" ∧
        Eff.outputEv ∉ (runLoop m evs comps).2 := by
  induction evs with
  | nil =>
    intro comps h
    obtain ⟨e, _, hmem⟩ := h
    simp [runLoop] at hmem
  | cons e rest ih =>
    intro comps h
    obtain ⟨e', hce, hmem⟩ := h
    by_cases h1 : (isEnterKey e && m.evaluator e (comps.map (m.handle e))) = true
    · rw [runLoop_cons_break m e rest comps h1] at hmem
      rcases List.mem_append.mp hmem with hA | hB
      · have he : e' = e := readEv_mem_iterEffs hA
        subst he
        have hent : isEnterKey e' = true := by
          have := h1
          simp only [Bool.and_eq_true] at this
          exact this.1
        rw [enter_not_ctrlc hent] at hce
        cases hce
      · simp at hB
    · have h1' : (isEnterKey e && m.evaluator e (comps.map (m.handle e))) = false := by
        simpa using h1
      by_cases h2 : isCtrlC e = true
      · rw [runLoop_cons_interrupt m e rest comps h1' h2]
        exact ⟨rfl, outputEv_not_mem_iterEffs⟩
      · have h2' : isCtrlC e = false := by simpa using h2
        rw [runLoop_cons_step m e rest comps h1' h2'] at hmem ⊢
        rcases List.mem_append.mp hmem with hA | hB
        · have he : e' = e := readEv_mem_iterEffs hA
          subst he
          rw [h2'] at hce
          cases hce
        · obtain ⟨hres, hout⟩ := ih (comps.map (m.handle e)) ⟨e', hce, hB⟩
          refine ⟨hres, ?_⟩
          intro hmem2
          rcases List.mem_append.mp hmem2 with hC | hD
          · exact outputEv_not_mem_iterEffs hC
          · exact hout hD

/-- C2: whenever a Ctrl+C key-press event is read at any iteration of the
driver loop, the run returns the distinguished interruption error variant
(Error::Interrupted, not an I/O error and not a panic — the model is
total), and the output-extractor call effect never occurs in that run. -/
theorem prompt_ctrlc_interrupts {σ T : Type} (m : PromptModel σ T)
    (evs : List Event) (init : List σ)
    (h : ∃ e, isCtrlC e = true ∧ Eff.readEv e ∈ (promptRun m evs init).2) :
    (promptRun m evs init).1 = PromptResult.interrupted "ctrl+c" ∧
      Eff.outputEv ∉ (promptRun m evs init).2 := by
  obtain ⟨e, hce, hmem⟩ := h
  have hmem' : Eff.readEv e ∈ (runLoop m evs init).2 := by
    simpa [promptRun] using hmem
  obtain ⟨hres, hout⟩ := runLoop_ctrlc m evs init ⟨e, hce, hmem'⟩
  constructor
  · simpa [promptRun] using hres
  · simpa [promptRun] using hout

/-- A concrete instantiation of the driver collaborators used by the
closed-form witnesses: one Nat-valued component whose handler increments
it, an evaluator that always finalizes, and an extractor summing states. -/
def demoModel : PromptModel Nat Nat :=
  { handle := fun _ s => s + 1,
    postrunFn := fun s => s,
    evaluator := fun _ _ => true,
    output := fun l => l.foldl (· + ·) 0 }

/-- C2 witness: the interruption theorem applied to the concrete run that
reads a single Ctrl+C event. -/
theorem prompt_ctrlc_interrupts_witness :
    (promptRun demoModel [ctrlCEvent] [0]).1 = PromptResult.interrupted "ctrl+c" ∧
      Eff.outputEv ∉ (promptRun demoModel [ctrlCEvent] [0]).2 :=
  prompt_ctrlc_interrupts demoModel [ctrlCEvent] [0]
    ⟨ctrlCEvent, by decide, by decide⟩

theorem runLoop_interrupt_shape {σ T : Type} (m : PromptModel σ T) (evs : List Event) :
    ∀ (comps : List σ) (s : String),
      (runLoop m evs comps).1 = PromptResult.interrupted s →
      ∃ e pre, isCtrlC e = true ∧
        (runLoop m evs comps).2 = pre ++ iterEffs comps.length e := by
  induction evs with
  | nil =>
    intro comps s h
    simp [runLoop] at h
  | cons e rest ih =>
    intro comps s h
    by_cases h1 : (isEnterKey e && m.evaluator e (comps.map (m.handle e))) = true
    · rw [runLoop_cons_break m e rest comps h1] at h
      simp at h
    · have h1' : (isEnterKey e && m.evaluator e (comps.map (m.handle e))) = false := by
        simpa using h1
      by_cases h2 : isCtrlC e = true
      · refine ⟨e, [], h2, ?_⟩
        rw [runLoop_cons_interrupt m e rest comps h1' h2]
        simp
      · have h2' : isCtrlC e = false := by simpa using h2
        rw [runLoop_cons_step m e rest comps h1' h2'] at h ⊢
        obtain ⟨e', pre', hc, heq⟩ := ih (comps.map (m.handle e)) s h
        refine ⟨e', iterEffs comps.length e ++ pre', hc, ?_⟩
        rw [heq]
        simp [List.append_assoc]

/-- C10: when the driver run ends in the interruption error, the very last
effects of the run are the read of a Ctrl+C event followed by the dispatch
of that event to every component in order, the evaluator call on it and a
redraw — the interruption check fires only after those steps complete, and
nothing is emitted after them. -/
theorem prompt_interrupt_after_dispatch {σ T : Type} (m : PromptModel σ T)
    (evs : List Event) (init : List σ) (s : String)
    (h : (promptRun m evs init).1 = PromptResult.interrupted s) :
    ∃ e pre, isCtrlC e = true ∧
      (promptRun m evs init).2 = pre ++ iterEffs init.length e := by
  have h' : (runLoop m evs init).1 = PromptResult.interrupted s := by
    simpa [promptRun] using h
  obtain ⟨e, pre, hc, heq⟩ := runLoop_interrupt_shape m evs init s h'
  refine ⟨e, Eff.drawEv :: pre, hc, ?_⟩
  simp [promptRun, heq]

/-- C10 witness: the dispatch-before-interrupt theorem applied to the
concrete run that reads a single Ctrl+C event. -/
theorem prompt_interrupt_after_dispatch_witness :
    ∃ e pre, isCtrlC e = true ∧
      (promptRun demoModel [ctrlCEvent] [0]).2 =
        pre ++ iterEffs (List.length [0]) e :=
  prompt_interrupt_after_dispatch demoModel [ctrlCEvent] [0] "ctrl+c" (by decide)

/-- C1 counterexample: in the concrete run that breaks on one finalizing
Enter event with a single component, the output-extractor effect occurs
strictly before the component's postrun effect, so the claimed
"postrun on every component first, extractor only afterwards" ordering
fails on this run. -/
theorem prompt_output_postrun_cex :
    ¬ outputOnlyAfterPostrun 1 (promptRun demoModel [enterEvent] [0]).2 := by
  unfold outputOnlyAfterPostrun
  decide

theorem runLoop_ok_shape {σ T : Type} (m : PromptModel σ T) (evs : List Event) :
    ∀ (comps : List σ) (t : T),
      (runLoop m evs comps).1 = PromptResult.ok t →
      ∃ pre, (runLoop m evs comps).2 =
          pre ++ Eff.outputEv :: (List.range comps.length).map Eff.postrunEv ∧
        Eff.outputEv ∉ pre := by
  induction evs with
  | nil =>
    intro comps t h
    simp [runLoop] at h
  | cons e rest ih =>
    intro comps t h
    by_cases h1 : (isEnterKey e && m.evaluator e (comps.map (m.handle e))) = true
    · refine ⟨iterEffs comps.length e, ?_, outputEv_not_mem_iterEffs⟩
      rw [runLoop_cons_break m e rest comps h1]
    · have h1' : (isEnterKey e && m.evaluator e (comps.map (m.handle e))) = false := by
        simpa using h1
      by_cases h2 : isCtrlC e = true
      · rw [runLoop_cons_interrupt m e rest comps h1' h2] at h
        simp at h
      · have h2' : isCtrlC e = false := by simpa using h2
        rw [runLoop_cons_step m e rest comps h1' h2'] at h ⊢
        obtain ⟨pre', heq, hnm⟩ := ih (comps.map (m.handle e)) t h
        refine ⟨iterEffs comps.length e ++ pre', ?_, ?_⟩
        · rw [heq]
          simp [List.append_assoc]
        · intro hmem
          rcases List.mem_append.mp hmem with hA | hB
          · exact outputEv_not_mem_iterEffs hA
          · exact hnm hB

/-- C1 as amended: on the break path the driver invokes the
output-extractor exactly once, against the component states as they stand
when the loop breaks, and only afterwards runs postrun on every component
— the run's effects end with the extractor call followed by the postrun of
each component in order, and no extractor call occurs earlier. -/
theorem prompt_output_then_postrun {σ T : Type} (m : PromptModel σ T)
    (evs : List Event) (init : List σ) (t : T)
    (h : (promptRun m evs init).1 = PromptResult.ok t) :
    ∃ pre, (promptRun m evs init).2 =
        pre ++ Eff.outputEv :: (List.range init.length).map Eff.postrunEv ∧
      Eff.outputEv ∉ pre ∧
      List.count Eff.outputEv (promptRun m evs init).2 = 1 := by
  have h' : (runLoop m evs init).1 = PromptResult.ok t := by
    simpa [promptRun] using h
  obtain ⟨pre, heq, hnm⟩ := runLoop_ok_shape m evs init t h'
  refine ⟨Eff.drawEv :: pre, ?_, ?_, ?_⟩
  · simp [promptRun, heq]
  · intro hmem
    rcases List.mem_cons.mp hmem with hA | hB
    · cases hA
    · exact hnm hB
  · have hnm2 : Eff.outputEv ∉
        (List.range init.length).map Eff.postrunEv := by simp
    simp [promptRun, heq, List.count_append, List.count_cons,
      List.count_eq_zero.mpr hnm, List.count_eq_zero.mpr hnm2]

/-- C1 witness: the amended ordering theorem applied to the concrete run
that breaks on one finalizing Enter event. -/
theorem prompt_output_then_postrun_witness :
    ∃ pre, (promptRun demoModel [enterEvent] [0]).2 =
        pre ++ Eff.outputEv :: (List.range (List.length [0])).map Eff.postrunEv ∧
      Eff.outputEv ∉ pre ∧
      List.count Eff.outputEv (promptRun demoModel [enterEvent] [0]).2 = 1 :=
  prompt_output_then_postrun demoModel [enterEvent] [0] 1 (by decide)

/-- The grapheme content of the buffer "abc " used by the specification's
own examples: a, b, c and the trailing sentinel. -/
def abcBuf : List Grapheme :=
  [{ ch := 'a', width := 1 }, { ch := 'b', width := 1 },
    { ch := 'c', width := 1 }, sentinel]

/-- C4 witness: erase on "abc " at the head is a no-op, and erase at
cursor 2 removes the grapheme at index 1 and steps the cursor to 1. -/
theorem textbuffer_erase_spec_witness :
    TextBuffer.erase { buf := abcBuf, position := 0 } =
        { buf := abcBuf, position := 0 } ∧
      TextBuffer.erase { buf := abcBuf, position := 2 } =
        { buf := abcBuf.eraseIdx (2 - 1), position := 2 - 1 } :=
  ⟨(textbuffer_erase_spec { buf := abcBuf, position := 0 }).1 rfl,
   (textbuffer_erase_spec { buf := abcBuf, position := 2 }).2 (by decide)⟩

/-- C5 witness: on "abc " with the cursor at the tail index 3, overwrite
with d agrees with insert in state and in diff pair; at cursor 1 it sets
index 1 and advances the cursor. -/
theorem textbuffer_overwrite_spec_witness :
    (TextBuffer.overwrite { buf := abcBuf, position := 3 } { ch := 'd', width := 1 } =
        TextBuffer.insert { buf := abcBuf, position := 3 } { ch := 'd', width := 1 } ∧
      overwritePair { buf := abcBuf, position := 3 } { ch := 'd', width := 1 } =
        insertPair { buf := abcBuf, position := 3 } { ch := 'd', width := 1 }) ∧
      TextBuffer.overwrite { buf := abcBuf, position := 1 } { ch := 'd', width := 1 } =
        { buf := abcBuf.set 1 { ch := 'd', width := 1 }, position := 1 + 1 } :=
  ⟨(textbuffer_overwrite_spec { buf := abcBuf, position := 3 }
      { ch := 'd', width := 1 }).1 (by decide),
   (textbuffer_overwrite_spec { buf := abcBuf, position := 1 }
      { ch := 'd', width := 1 }).2 (by decide) (by decide)⟩
